import Mathlib

/-!
Verification development for the N8AI chatbot SQL safety pipeline
(`chatbot/utils.py`, `chatbot/openai_service.py`, `chatbot/schema_manager.py`).

Modelling conventions:

* Python strings are modelled as `List Char` at ASCII fidelity: `str.upper`,
  `str.strip` and the regex classes `\w`/`\s` are modelled by their ASCII
  behaviour (`Char.toUpper`, the six ASCII whitespace characters,
  `[A-Za-z0-9_]`).  All SQL handled by the program is ASCII.
* The third-party `sqlparse` library is modelled by `tokenize` /
  `splitStatements` / `groupTop` below: statements are split after each
  semicolon token, quoted strings are single tokens (so a `;` inside a
  string literal never splits a statement), maximal name runs (a word
  character continued over word characters, `$` and `#`) are
  keyword/name tokens, and a run whose text is one of SELECT, INSERT,
  DELETE, UPDATE, UPSERT, REPLACE, MERGE receives the DML token type
  unless it is immediately followed by `(`, which sqlparse lexes as a
  function name instead.  Matched parentheses become nested token
  groups.  (Simplifications recorded in the doc comments of the
  individual definitions: SQL comments, numbers, placeholders and
  quoted identifiers are not fused into single tokens and an unmatched
  opening parenthesis groups to the end of the statement; the theorems
  below use the parsed tree only in the rejection direction — where
  every model DML token is a whole-word keyword occurrence in the raw
  text, `tokenizeF_dml` — and on concrete inputs free of those
  constructs.)
* Effects (database cursor, OpenAI call) are modelled by explicit
  function parameters; fallible calls return `Except`.
-/

namespace N8AI

/-- Characters stripped by Python `str.strip()` (ASCII). -/
def pyIsSpace (c : Char) : Bool :=
  c = ' ' || c = '\t' || c = '\n' || c = '\r' || c = '\x0b' || c = '\x0c'

/-- The regex word-character class `\w` at ASCII fidelity. -/
def isWordChar (c : Char) : Bool :=
  c.isAlphanum || c = '_'

/-- Python `str.upper()` (ASCII). -/
def pyUpper (s : List Char) : List Char :=
  s.map Char.toUpper

/-- Python `str.strip()` (ASCII whitespace). -/
def pyStrip (s : List Char) : List Char :=
  (((s.dropWhile pyIsSpace).reverse).dropWhile pyIsSpace).reverse

/-- Number of occurrences of a character, `str.count` for a single char. -/
def countChar (c : Char) (s : List Char) : Nat :=
  s.countP (· = c)

/-- Whether `kw` occurs at the head of `s` with a word boundary after it:
the next character, if any, is not a word character. -/
def atWordStart (kw s : List Char) : Bool :=
  kw.isPrefixOf s &&
    (match s.drop kw.length with
     | [] => true
     | c :: _ => !isWordChar c)

/-- Whether the position after `prev` is a word boundary for a keyword
starting with a word character: `prev` is `none` at the start of the
string, otherwise the preceding character. -/
def prevOk : Option Char → Bool
  | none => true
  | some p => !isWordChar p

/-- Scan for a whole-word occurrence of `kw`; `prev` is the character
just before the current position (`none` at the start of the string). -/
def wwFrom (kw : List Char) (prev : Option Char) (s : List Char) : Bool :=
  match s with
  | [] => false
  | c :: rest =>
      (prevOk prev && atWordStart kw (c :: rest)) || wwFrom kw (some c) rest

/-- Model of the regex search `\b<kw>\b` on `s` (`kw` made of word
characters): a whole-word, word-boundary-anchored occurrence. -/
def containsWholeWord (kw s : List Char) : Bool :=
  wwFrom kw none s

namespace SQLSecurityValidator

/-- `SQLSecurityValidator.DANGEROUS_KEYWORDS` (utils.py lines 22-26), in
source order.  Python iterates a `set`; the order in which keywords are
tried is therefore unspecified, and theorems below only rely on the
membership of the matched keyword, not on which one is reported first. -/
def DANGEROUS_KEYWORDS : List (List Char) :=
  ["DROP", "TRUNCATE", "DELETE", "UPDATE", "INSERT", "ALTER", "CREATE",
   "GRANT", "REVOKE", "EXECUTE", "EXEC", "EXECUTE IMMEDIATE",
   "MERGE", "UPSERT", "REPLACE", "RENAME", "MODIFY"].map String.toList

/-- `SQLSecurityValidator.DANGEROUS_FUNCTIONS` (utils.py lines 29-32). -/
def DANGEROUS_FUNCTIONS : List (List Char) :=
  ["pg_read_file", "pg_ls_dir", "pg_stat_file", "pg_read_binary_file",
   "system", "exec", "eval", "shell_exec", "passthru"].map String.toList

/-- First dangerous keyword (in list order) with a whole-word match in `q`
(utils.py lines 58-63; `q` is the stripped, uppercased query). -/
def findDangerousKeyword (q : List Char) : Option (List Char) :=
  DANGEROUS_KEYWORDS.find? (fun kw => containsWholeWord kw q)

/-- Python's `in` on strings: `pat` occurs as a contiguous substring. -/
def containsSubstring (pat : List Char) : List Char → Bool
  | [] => pat.isEmpty
  | c :: rest => pat.isPrefixOf (c :: rest) || containsSubstring pat rest

/-- First dangerous function name occurring, uppercased, as a substring of
`q` (utils.py lines 66-68). -/
def findDangerousFunction (q : List Char) : Option (List Char) :=
  DANGEROUS_FUNCTIONS.find? (fun f => containsSubstring (pyUpper f) q)

/-- Matcher for the regex `--\s*$` at the current position: `--` followed
only by whitespace up to the end of the string.  (`$` may also match just
before a final newline, but a newline is whitespace, so the two readings
coincide.) -/
def lineCommentAt (s : List Char) : Bool :=
  match s with
  | '-' :: '-' :: rest => rest.all pyIsSpace
  | _ => false

/-- Scan for `*/` with no intervening newline (the `.` of the pattern
`/\*.*?\*/` does not match a newline). -/
def blockCloseNoNewline : List Char → Bool
  | [] => false
  | '*' :: '/' :: _ => true
  | '\n' :: _ => false
  | _ :: rest => blockCloseNoNewline rest

/-- Matcher for the regex `/\*.*?\*/` at the current position. -/
def blockCommentAt (s : List Char) : Bool :=
  match s with
  | '/' :: '*' :: rest => blockCloseNoNewline rest
  | _ => false

/-- Does `p` hold at some suffix of `s` (regex `re.search` positioning)? -/
def anySuffix (p : List Char → Bool) : List Char → Bool
  | [] => p []
  | c :: rest => p (c :: rest) || anySuffix p rest

/-- Consume one-or-more whitespace characters (`\s+`); `none` if the head
is not whitespace.  All blocklist patterns follow `\s+`/`\s*` with a
non-whitespace literal, so maximal munch is equivalent to regex
backtracking here. -/
def dropWsPlus (s : List Char) : Option (List Char) :=
  match s with
  | c :: rest => if pyIsSpace c then some (rest.dropWhile pyIsSpace) else none
  | [] => none

/-- Matcher for `<a>\s+<b>` at the current position. -/
def litWsLitAt (a b s : List Char) : Bool :=
  if a.isPrefixOf s then
    match dropWsPlus (s.drop a.length) with
    | some r => b.isPrefixOf r
    | none => false
  else false

/-- Matcher for `<a>\s+1\s*=\s*1` at the current position. -/
def tautologyAt (a s : List Char) : Bool :=
  if a.isPrefixOf s then
    match dropWsPlus (s.drop a.length) with
    | some r =>
        match r with
        | '1' :: r1 =>
            match (r1.dropWhile pyIsSpace) with
            | '=' :: r2 =>
                match (r2.dropWhile pyIsSpace) with
                | '1' :: _ => true
                | _ => false
            | _ => false
        | _ => false
    | none => false
  else false

/-- `SQLSecurityValidator.INJECTION_PATTERNS` (utils.py lines 35-43):
each regex source string paired with its matcher.  The query is already
uppercased when these run, so `re.IGNORECASE` is immaterial. -/
def INJECTION_PATTERNS : List (List Char × (List Char → Bool)) :=
  [("--\\s*$".toList, anySuffix lineCommentAt),
   ("/\\*.*?\\*/".toList, anySuffix blockCommentAt),
   ("UNION\\s+ALL".toList, anySuffix (litWsLitAt "UNION".toList "ALL".toList)),
   ("UNION\\s+SELECT".toList, anySuffix (litWsLitAt "UNION".toList "SELECT".toList)),
   ("OR\\s+1\\s*=\\s*1".toList, anySuffix (tautologyAt "OR".toList)),
   ("OR\\s+TRUE".toList, anySuffix (litWsLitAt "OR".toList "TRUE".toList)),
   ("AND\\s+1\\s*=\\s*1".toList, anySuffix (tautologyAt "AND".toList))]

/-- Source string of the first injection pattern matching `q`
(utils.py lines 71-73). -/
def findInjectionPattern (q : List Char) : Option (List Char) :=
  (INJECTION_PATTERNS.find? (fun p => p.2 q)).map (·.1)

end SQLSecurityValidator

namespace Sqlparse

/-- Model of a `sqlparse` token.  `dml` is a keyword token whose ttype is
`Keyword.DML`; `word` covers every other word-character run (names, other
keywords, numbers); `strLit` is a quoted string or quoted identifier
including its quotes; `punct` is any other single character (punctuation,
operators and whitespace, whose finer sqlparse ttypes are irrelevant to
the validator); `group` is a parenthesized token group. -/
inductive Tok where
  | dml (v : List Char)
  | word (v : List Char)
  | strLit (v : List Char)
  | punct (v : List Char)
  | group (ts : List Tok)

/-- The keywords `sqlparse` classifies with ttype `Keyword.DML`. -/
def dmlKeywords : List (List Char) :=
  ["SELECT", "INSERT", "DELETE", "UPDATE", "UPSERT", "REPLACE",
   "MERGE"].map String.toList

mutual

/-- `token.value`: the text of a token (a group's value is the
concatenation of its children's values). -/
def tokVal : Tok → List Char
  | .dml v => v
  | .word v => v
  | .strLit v => v
  | .punct v => v
  | .group ts => toksVal ts

/-- `str(token_list)`: concatenated values of a token sequence. -/
def toksVal : List Tok → List Char
  | [] => []
  | t :: ts => tokVal t ++ toksVal ts

end

/-- Whether a token is the given single punctuation character. -/
def isPunctOf (c : Char) : Tok → Bool
  | .punct [c'] => c' = c
  | _ => false

/-- Consume a quoted literal opened before `s`: everything up to and
including the next `close` quote.  (sqlparse additionally treats `''` and
`\'` as escapes within a literal; the model ends the literal at every
quote, which splits such text into adjacent literal tokens with the same
character content — statement splitting and semicolon counting, the only
consumers, are unaffected.) -/
def takeLit (close : Char) : List Char → (List Char × List Char)
  | [] => ([], [])
  | c :: rest =>
      if c = close then ([c], rest)
      else
        let p := takeLit close rest
        (c :: p.1, p.2)

/-- Characters that continue a name/keyword run: sqlparse's name rule
`[0-9_A-ZÀ-Ü][_$#\w]*` starts a run at a word character but continues it
over `$` and `#` as well, so e.g. `SELECT$X` is a single name token. -/
def isNameChar (c : Char) : Bool :=
  isWordChar c || c = '$' || c = '#'

/-- Fuel-indexed tokenizer; `tokenize` instantiates the fuel with the
input length, which is sufficient because every step consumes at least
one character.  Keyword candidates are maximal name runs (a word
character continued over `isNameChar`, following sqlparse's
`[0-9_A-ZÀ-Ü][_$#\w]*` rule); a run is a DML keyword token exactly when
its text is a DML keyword and the run is not immediately followed by
`(` — sqlparse's higher-priority rule `[A-ZÀ-Ü]\w*(?=\()` lexes a
keyword directly before a parenthesis as a function name instead, so
e.g. `SELECT(1)` carries no DML token.  (sqlparse additionally fuses
comments, numbers, placeholders, bracketed/backquoted identifiers and
dollar-quoted literals into single tokens of their own types; the model
keeps their characters as punctuation/word runs, so its DML
classification and sqlparse's can differ in either direction on inputs
using those constructs.  The theorems below therefore use the parsed
tree only in the rejection direction — every model DML token is a
whole-word keyword occurrence in the raw text, `tokenizeF_dml`, and so
is caught by the text-level keyword gate — and on concrete inputs free
of those constructs, where the model and sqlparse agree.) -/
def tokenizeF : Nat → List Char → List Tok
  | 0, _ => []
  | _ + 1, [] => []
  | fuel + 1, c :: rest =>
      if c = '\'' || c = '"' then
        let p := takeLit c rest
        Tok.strLit (c :: p.1) :: tokenizeF fuel p.2
      else if isWordChar c then
        let run := (c :: rest).takeWhile isNameChar
        let rest' := (c :: rest).dropWhile isNameChar
        (if run ∈ dmlKeywords ∧ rest'.head? ≠ some '(' then Tok.dml run
         else Tok.word run) :: tokenizeF fuel rest'
      else
        Tok.punct [c] :: tokenizeF fuel rest

/-- Tokenize a complete query. -/
def tokenize (q : List Char) : List Tok :=
  tokenizeF q.length q

/-- `sqlparse`'s statement splitter: a statement ends just after a
semicolon token, which stays attached to the statement it terminates; a
semicolon inside a string-literal token never splits. -/
def splitStatements : List Tok → List (List Tok)
  | [] => []
  | t :: rest =>
      if isPunctOf ';' t then [t] :: splitStatements rest
      else
        match splitStatements rest with
        | [] => [[t]]
        | st :: sts => (t :: st) :: sts

/-- Group a token stream at matched parentheses; stops before an
unmatched `)` and returns the remainder.  (sqlparse leaves an unmatched
`(` ungrouped; the model groups it to the end of the statement.  The
difference only moves tokens deeper into groups, so it can turn a
top-level `SELECT` invisible to `_is_select_statement`, never the
reverse; no theorem below depends on an unmatched parenthesis.) -/
def groupF : Nat → List Tok → (List Tok × List Tok)
  | 0, ts => (ts, [])
  | _ + 1, [] => ([], [])
  | fuel + 1, t :: rest =>
      if isPunctOf ')' t then ([], t :: rest)
      else if isPunctOf '(' t then
        let p := groupF fuel rest
        match p.2 with
        | t2 :: rest2 =>
            let q := groupF fuel rest2
            (Tok.group (t :: (p.1 ++ [t2])) :: q.1, q.2)
        | [] => ([Tok.group (t :: p.1)], [])
      else
        let p := groupF fuel rest
        (t :: p.1, p.2)

/-- Group a whole statement, emitting stray closing parentheses flat. -/
def groupTop : Nat → List Tok → List Tok
  | 0, ts => ts
  | fuel + 1, ts =>
      let p := groupF (fuel + 1) ts
      match p.2 with
      | [] => p.1
      | t :: rest => p.1 ++ t :: groupTop fuel rest

/-- `sqlparse.parse`: split into statements, then build each statement's
token tree. -/
def parse (q : List Char) : List (List Tok) :=
  (splitStatements (tokenize q)).map (fun ts => groupTop (ts.length + 1) ts)

end Sqlparse

/-- The `(is_safe, message)` pair returned by
`SQLSecurityValidator.validate_sql`. -/
structure Verdict where
  accepted : Bool
  reason : List Char
deriving DecidableEq, Repr

namespace SQLSecurityValidator

open Sqlparse

/-- `SQLSecurityValidator._is_select_statement` (utils.py lines 95-101):
some top-level token of the statement is a DML token whose (already
uppercased) value is `SELECT`. -/
def _is_select_statement (st : List Tok) : Bool :=
  st.any fun t =>
    match t with
    | Tok.dml v => v = "SELECT".toList
    | _ => false

mutual

/-- One step of `SQLSecurityValidator._has_nested_dml` on a single token:
a token list (group) is recursed into, a DML leaf other than `SELECT`
triggers rejection (utils.py lines 116-125). -/
def _has_nested_dml_tok : Tok → Bool
  | Tok.group ts => _has_nested_dml ts
  | Tok.dml v => !(v = "SELECT".toList)
  | _ => false

/-- `SQLSecurityValidator._has_nested_dml` over a token list. -/
def _has_nested_dml : List Tok → Bool
  | [] => false
  | t :: ts => _has_nested_dml_tok t || _has_nested_dml ts

end

/-- `SQLSecurityValidator._has_multiple_statements` (utils.py lines
127-138): counts every `';'` character of `str(statement)` — including
those inside string literals, despite the comment in the source — and
reports `True` when the count exceeds one. -/
def _has_multiple_statements (st : List Tok) : Bool :=
  decide (1 < countChar ';' (toksVal st))

/-- `SQLSecurityValidator._validate_statement_structure` (utils.py lines
103-114). -/
def _validate_statement_structure (st : List Tok) : Bool :=
  !(_has_nested_dml st) && !(_has_multiple_statements st)

/-- Rejection message for a dangerous keyword (utils.py line 63). -/
def keywordMsg (kw : List Char) : List Char :=
  "Dangerous SQL keyword '".toList ++ kw ++ "' is not allowed".toList

/-- Rejection message for a dangerous function (utils.py line 68). -/
def functionMsg (f : List Char) : List Char :=
  "Dangerous function '".toList ++ f ++ "' is not allowed".toList

/-- Rejection message for an injection pattern (utils.py line 73). -/
def patternMsg (p : List Char) : List Char :=
  "Potentially dangerous SQL pattern detected: ".toList ++ p

/-- The check chain of `SQLSecurityValidator.validate_sql` (utils.py
lines 57-89) on the normalized query `q`: keyword blocklist, function
blocklist, injection patterns, parse, SELECT classification, structural
validation — first rejection wins. -/
def validate_checks (q : List Char) : Verdict :=
  match findDangerousKeyword q with
  | some kw => ⟨false, keywordMsg kw⟩
  | none =>
    match findDangerousFunction q with
    | some f => ⟨false, functionMsg f⟩
    | none =>
      match findInjectionPattern q with
      | some p => ⟨false, patternMsg p⟩
      | none =>
        match parse q with
        | [] => ⟨false, "Invalid SQL query".toList⟩
        | st :: _ =>
          if !(_is_select_statement st) then
            ⟨false, "Only SELECT statements are allowed".toList⟩
          else if !(_validate_statement_structure st) then
            ⟨false, "Query structure validation failed".toList⟩
          else
            ⟨true, "Query is safe".toList⟩

/-- The body of `SQLSecurityValidator.validate_sql` (utils.py lines
53-89), i.e. everything inside the `try`: normalize (strip + uppercase,
utils.py line 55), then run the check chain.  The `Except` channel
models a Python exception escaping the body; in the model no step can
fail, so the body always returns `.ok`, but the channel is kept so that
the exception-handler wrapper below is stated against the code's shape. -/
def validate_body (sql_query : List Char) : Except (List Char) Verdict :=
  .ok (validate_checks (pyUpper (pyStrip sql_query)))

/-- The message built by the `except` clause (utils.py line 93). -/
def validationErrorMsg (e : List Char) : List Char :=
  "SQL validation error: ".toList ++ e

/-- The `try/except` wrapper of `validate_sql`: an exception escaping the
body is converted into a rejection (fail closed). -/
def validate_handler (r : Except (List Char) Verdict) : Verdict :=
  match r with
  | .ok v => v
  | .error e => ⟨false, validationErrorMsg e⟩

/-- `SQLSecurityValidator.validate_sql` (utils.py lines 45-93). -/
def validate_sql (sql_query : List Char) : Verdict :=
  validate_handler (validate_body sql_query)

/-- Whether the first parsed statement's token tree contains a DML token
other than `SELECT` at any depth (the property tested by the structural
check on the statement `validate_sql` inspects). -/
def firstStmtHasNestedDml (q : List Char) : Bool :=
  match parse q with
  | st :: _ => _has_nested_dml st
  | [] => false

/-- Whether the query parses to at least one statement whose first
statement is a SELECT statement. -/
def firstStmtIsSelect (q : List Char) : Bool :=
  match parse q with
  | st :: _ => _is_select_statement st
  | [] => false

end SQLSecurityValidator

/-- A scalar cell value as it comes back from the database cursor.
`decimal` carries the textual representation of a `decimal.Decimal`,
`date`/`datetime` carry the text of their `isoformat()`; the numeric
rounding of Python's `float(Decimal)` is outside the model (no claim
depends on it), so `float` likewise carries a textual payload. -/
inductive Scalar where
  | int (n : Int)
  | flt (v : List Char)
  | decimal (v : List Char)
  | date (iso : List Char)
  | datetime (iso : List Char)
  | str (s : List Char)
  | null
deriving DecidableEq, Repr

/-- A result row: a name-keyed record in the backend's column order
(Python dicts preserve insertion order). -/
abbrev Row : Type := List (List Char × Scalar)

/-- The dictionary produced by `QueryFormatter.format_results`.
`display_count` is optional because the empty-input early return
(utils.py lines 284-290) builds a dict without that key. -/
structure FormattedResults where
  data : List Row
  columns : List (List Char)
  row_count : Nat
  truncated : Bool
  display_count : Option Nat
deriving DecidableEq, Repr

namespace QueryFormatter

/-- `convert_value` inside `format_results` (utils.py lines 300-305):
`Decimal` becomes a float, `date`/`datetime` become their ISO text, all
other scalars pass through. -/
def convert_value : Scalar → Scalar
  | .decimal v => .flt v
  | .date iso => .str iso
  | .datetime iso => .str iso
  | v => v

/-- Per-row value conversion (utils.py lines 306-308). -/
def convertRow (r : Row) : Row :=
  r.map (fun kv => (kv.1, convert_value kv.2))

/-- `QueryFormatter.format_results` (utils.py lines 281-316). -/
def format_results (results : List Row) (max_rows : Nat := 100) :
    FormattedResults :=
  match results with
  | [] => ⟨[], [], 0, false, none⟩
  | first :: _ =>
      let columns := first.map (·.1)
      let truncated := decide (max_rows < results.length)
      let display := if truncated then results.take max_rows else results
      let display := display.map convertRow
      ⟨display, columns, results.length, truncated, some display.length⟩

end QueryFormatter

/-- The warehouse cursor, as a pure oracle: `run sql` yields an error
message (backend failure/timeout), or `none` when the cursor reports no
result columns (`cursor.description` falsy), or the column names with
the raw rows. -/
structure Backend where
  run : List Char → Except (List Char) (Option (List (List Char) × List (List Scalar)))

/-- What `DatabaseManager.execute_query` returns, plus an effect flag
recording whether a warehouse connection was ever acquired (the Python
code acquires it only after validation passes). -/
structure ExecResult where
  success : Bool
  results : Option (List Row)
  error : List Char
  connectionAcquired : Bool
deriving Repr

namespace DatabaseManager

open SQLSecurityValidator

/-- `DatabaseManager.execute_query` (utils.py lines 153-203): re-validate
through the safety gate, and only on acceptance acquire a connection and
execute.  Python's two `except` clauses produce `Database operation
error:`/`Unexpected error:` prefixes; the model routes every backend
failure through the first. -/
def execute_query (b : Backend) (sql_query : List Char) : ExecResult :=
  let v := validate_sql sql_query
  if v.accepted then
    match b.run sql_query with
    | .error e =>
        ⟨false, none, "Database operation error: ".toList ++ e, true⟩
    | .ok none => ⟨true, some [], [], true⟩
    | .ok (some (columns, rows)) =>
        ⟨true, some (rows.map (fun r => columns.zip r)), [], true⟩
  else
    ⟨false, none, v.reason, false⟩

end DatabaseManager

namespace OpenAIService

/-- The code-fence removal steps of `OpenAIService._clean_sql_query`
(openai_service.py lines 150-155): drop a leading ` ```sql `, then a
leading ` ``` ` if (still) present, then a trailing ` ``` `. -/
def stripFences (sql_query : List Char) : List Char :=
  let s1 := if "```sql".toList.isPrefixOf sql_query
            then sql_query.drop 6 else sql_query
  let s2 := if "```".toList.isPrefixOf s1 then s1.drop 3 else s1
  if "```".toList.isSuffixOf s2 then s2.take (s2.length - 3) else s2

/-- `OpenAIService._clean_sql_query` (openai_service.py lines 147-164):
strip markdown code fences, trim whitespace, terminate with `;`. -/
def _clean_sql_query (sql_query : List Char) : List Char :=
  if [';'].isSuffixOf (pyStrip (stripFences sql_query))
  then pyStrip (stripFences sql_query)
  else pyStrip (stripFences sql_query) ++ [';']

end OpenAIService

/-- The `response_data` dict built by `ChatService.process_user_message`
(openai_service.py lines 237-245).  The pretty-printed `formatted_sql`
field is display-only and not modelled. -/
structure ResponseData where
  sql_query : List Char
  results : Option FormattedResults
  error : Option (List Char)
  tokens_used : Nat
  execution_success : Bool
  summary : List Char
deriving Repr

/-- The `QueryLog` audit row created by `ChatService.create_chat_response`
(openai_service.py lines 292-302, fields from models.py lines 82-92). -/
structure QueryLog where
  original_query : List Char
  generated_sql : List Char
  is_safe : Bool
  execution_success : Bool
  error_message : Option (List Char)
deriving Repr

namespace ChatService

open DatabaseManager QueryFormatter

/-- `ChatService.process_user_message` (openai_service.py lines 210-250),
with the two external calls as parameters: `gen` is the outcome of
`generate_sql` (`.error` when it fails, otherwise the cleaned SQL and the
token count) and `summarize` stands for `generate_results_summary`.  A
generation failure returns before any database work. -/
def process_user_message (gen : Except (List Char) (List Char × Nat))
    (b : Backend) (summarize : FormattedResults → List Char) :
    Except (List Char) ResponseData :=
  match gen with
  | .error e => .error e
  | .ok (sql_query, tokens_used) =>
      let r := execute_query b sql_query
      let formatted :=
        if r.success then some (format_results (r.results.getD []) 100)
        else none
      let summary :=
        match formatted with
        | some f => if f.data.isEmpty then [] else summarize f
        | none => []
      .ok { sql_query := sql_query
            results := formatted
            error := if r.success then none else some r.error
            tokens_used := tokens_used
            execution_success := r.success
            summary := summary }

/-- The `QueryLog` record written by `ChatService.create_chat_response`
(openai_service.py lines 292-302): `is_safe` is hard-coded to `True`
(with the comment `# Already validated`) regardless of what the safety
gate actually decided for this turn. -/
def create_chat_response (user_query : List Char) (rd : ResponseData) :
    QueryLog :=
  { original_query := user_query
    generated_sql := rd.sql_query
    is_safe := true
    execution_success := rd.execution_success
    error_message := rd.error }

end ChatService

/-- A parsed YAML document (what `yaml.safe_load` returns).  Mapping keys
are modelled as strings, the only key type the schema format uses. -/
inductive Yaml where
  | null
  | bool (b : Bool)
  | int (n : Int)
  | str (s : List Char)
  | list (l : List Yaml)
  | map (m : List (List Char × Yaml))

namespace SchemaManager

/-- `d.get(k)` on a YAML mapping. -/
def yget (m : List (List Char × Yaml)) (k : List Char) : Option Yaml :=
  (m.find? (fun kv => kv.1 = k)).map (·.2)

/-- `k in d` on a YAML mapping. -/
def ymem (m : List (List Char × Yaml)) (k : List Char) : Bool :=
  (yget m k).isSome

/-- Python `str()` of a YAML scalar, used when interpolating a table name
into a validation message.  Only string names are exercised by the
theorems below; composite values render as a placeholder. -/
def ytext : Yaml → List Char
  | .str s => s
  | .int n => (toString n).toList
  | .bool true => "True".toList
  | .bool false => "False".toList
  | .null => "None".toList
  | _ => "?".toList

/-- One column record of the transformed schema (the dict built at
schema_manager.py lines 433-439 / 445-451); fields keep the raw YAML
values, as the Python dict does. -/
structure ColInfo where
  column_name : Yaml
  data_type : Yaml
  is_nullable : Yaml
  column_default : Yaml
  description : Yaml

/-- Python `==` on the scalar YAML values that can serve as dict keys
(lists/maps are unhashable and would raise before reaching a key
comparison). -/
def ykeyEq : Yaml → Yaml → Bool
  | .str a, .str b => a = b
  | .int a, .int b => a = b
  | .bool a, .bool b => a = b
  | .null, .null => true
  | _, _ => false

/-- `schema_info[table_name] = ...`: Python dict assignment (replaces in
place on a duplicate key, appends otherwise). -/
def upsert (acc : List (Yaml × List ColInfo)) (k : Yaml)
    (v : List ColInfo) : List (Yaml × List ColInfo) :=
  match acc with
  | [] => [(k, v)]
  | (k', v') :: rest =>
      if ykeyEq k' k then (k', v) :: rest
      else (k', v') :: upsert rest k v

/-- `for column in columns:` — which YAML values the loop can iterate
without raising.  A list yields its elements; an empty mapping or empty
string yields nothing; a non-empty mapping or string yields keys or
characters, on which the subsequent `column.get` raises
`AttributeError`; `None` and numbers raise `TypeError`.  `none` models
the raised exception (which aborts the whole load). -/
def iterCols : Yaml → Option (List Yaml)
  | .list cs => some cs
  | .map [] => some []
  | .map (_ :: _) => none
  | .str [] => some []
  | .str (_ :: _) => none
  | _ => none

/-- One column of the list format (schema_manager.py lines 433-439):
`column.get` with the list-format defaults; a non-mapping column raises. -/
def colOfYamlList : Yaml → Option ColInfo
  | .map cm =>
      some ⟨(yget cm "name".toList).getD (.str []),
            (yget cm "type".toList).getD (.str "varchar(255)".toList),
            (yget cm "nullable".toList).getD (.bool true),
            (yget cm "default".toList).getD (.str []),
            (yget cm "description".toList).getD (.str [])⟩
  | _ => none

/-- One column of the dict format (schema_manager.py lines 445-451). -/
def colOfYamlDict : Yaml → Option ColInfo
  | .map cm =>
      some ⟨(yget cm "name".toList).getD (.str []),
            (yget cm "type".toList).getD (.str []),
            (yget cm "nullable".toList).getD (.bool true),
            (yget cm "default".toList).getD (.str []),
            (yget cm "description".toList).getD (.str [])⟩
  | _ => none

/-- The list-format loop (schema_manager.py lines 426-439). -/
def loadTablesList (tables : List Yaml)
    (acc : List (Yaml × List ColInfo)) :
    Option (List (Yaml × List ColInfo)) :=
  match tables with
  | [] => some acc
  | table :: rest =>
      match table with
      | .map tm =>
          let name := (yget tm "name".toList).getD (.str [])
          let colsY := (yget tm "columns".toList).getD (.list [])
          match iterCols colsY with
          | some cols =>
              match cols.mapM colOfYamlList with
              | some cis => loadTablesList rest (upsert acc name cis)
              | none => none
          | none => none
      | _ => none

/-- The dict-format loop (schema_manager.py lines 440-451). -/
def loadTablesDict (tables : List (List Char × Yaml))
    (acc : List (Yaml × List ColInfo)) :
    Option (List (Yaml × List ColInfo)) :=
  match tables with
  | [] => some acc
  | (tname, colsY) :: rest =>
      match iterCols colsY with
      | some cols =>
          match cols.mapM colOfYamlDict with
          | some cis => loadTablesDict rest (upsert acc (.str tname) cis)
          | none => none
      | none => none

/-- `SchemaManager.load_schema_from_yaml`, from the parsed document
onward (schema_manager.py lines 403-465; file lookup, the mtime cache
and YAML parsing are I/O and stay outside the model).  Every exception
raised during the transformation is caught and turned into an *empty*
schema (`return {}`), and a document without a usable `tables` mapping
also yields an empty schema — the function never fails. -/
def load_schema_transform (schema_data : Yaml) :
    List (Yaml × List ColInfo) :=
  let body : Option (List (Yaml × List ColInfo)) :=
    match schema_data with
    | .map m =>
        match yget m "tables".toList with
        | some (.list tables) => loadTablesList tables []
        | some (.map tm) => loadTablesDict tm []
        | some _ => some []
        | none => some []
    | _ => some []
  match body with
  | some r => r
  | none => []

/-- Column loop of `validate_schema_file` (both formats use the same
messages; schema_manager.py lines 508-513 and 520-525). -/
def colListErr (tname : List Char) (j : Nat) (cols : List Yaml) :
    Option (List Char) :=
  match cols with
  | [] => none
  | c :: rest =>
      match c with
      | .map cm =>
          if ymem cm "name".toList then colListErr tname (j + 1) rest
          else some ("Column ".toList ++ (Nat.repr j).toList ++
                     " in table '".toList ++ tname ++
                     "' missing 'name' field".toList)
      | _ => some ("Column ".toList ++ (Nat.repr j).toList ++
                   " in table '".toList ++ tname ++
                   "' must be a dictionary".toList)

/-- Table loop of `validate_schema_file`, list format
(schema_manager.py lines 495-513). -/
def tableListErr (i : Nat) (tables : List Yaml) : Option (List Char) :=
  match tables with
  | [] => none
  | table :: rest =>
      match table with
      | .map tm =>
          if ymem tm "name".toList then
            match (yget tm "columns".toList).getD (.list []) with
            | .list cols =>
                match colListErr (ytext ((yget tm "name".toList).getD .null))
                    0 cols with
                | some e => some e
                | none => tableListErr (i + 1) rest
            | _ => some ("Columns for table '".toList ++
                         ytext ((yget tm "name".toList).getD .null) ++
                         "' must be a list".toList)
          else some ("Table ".toList ++ (Nat.repr i).toList ++
                     " missing 'name' field".toList)
      | _ => some ("Table ".toList ++ (Nat.repr i).toList ++
                   " must be a dictionary".toList)

/-- Table loop of `validate_schema_file`, dict format
(schema_manager.py lines 514-525). -/
def tableDictErr (tables : List (List Char × Yaml)) :
    Option (List Char) :=
  match tables with
  | [] => none
  | (tname, colsY) :: rest =>
      match colsY with
      | .list cols =>
          match colListErr tname 0 cols with
          | some e => some e
          | none => tableDictErr rest
      | _ => some ("Columns for table '".toList ++ tname ++
                   "' must be a list".toList)

/-- `SchemaManager.validate_schema_file`, from the parsed document onward
(schema_manager.py lines 471-532): reports `(False, message)` naming the
first structural defect, `(True, ...)` otherwise. -/
def validate_schema_data (schema_data : Yaml) : Bool × List Char :=
  match schema_data with
  | .map m =>
      match yget m "tables".toList with
      | none => (false, "Schema file must contain 'tables' key".toList)
      | some (.list tables) =>
          match tableListErr 0 tables with
          | some e => (false, e)
          | none => (true, "Schema file is valid".toList)
      | some (.map tm) =>
          match tableDictErr tm with
          | some e => (false, e)
          | none => (true, "Schema file is valid".toList)
      | some _ => (false, "'tables' must be a dictionary or list".toList)
  | _ => (false, "Schema file must contain a dictionary".toList)

end SchemaManager

/-! ## Concrete fixtures used by the closed theorems below -/

/-- A backend whose cursor reports no result columns; used where the
theorem shows the backend is never reached anyway. -/
def idleBackend : Backend := ⟨fun _ => .ok none⟩

/-- A generator outcome for the turn `"delete all players"`: generation
succeeds and returns SQL containing `DELETE`. -/
def deleteTurnGen : Except (List Char) (List Char × Nat) :=
  .ok ("DELETE FROM PLAYERS;".toList, 42)

/-- A schema document whose only table has a column entry missing
`name`. -/
def docMissingColName : Yaml :=
  .map [("tables".toList, .list
    [.map [("name".toList, .str "T".toList),
           ("columns".toList, .list
             [.map [("description".toList, .str "x".toList)]])]])]

/-- A schema document whose only table has non-list (mapping-valued)
`columns`. -/
def docNonListCols : Yaml :=
  .map [("tables".toList, .list
    [.map [("name".toList, .str "T".toList),
           ("columns".toList,
             .map [("c1".toList, .str "oops".toList)])]])]

/-! ## Inversion of the validator's accepting run -/

namespace SQLSecurityValidator

open Sqlparse

/-- A query is accepted only when every gate passed: no dangerous
keyword, function or pattern fired, the query parsed, and the first
statement is a structurally valid SELECT. -/
theorem validate_checks_accepted_inv (q : List Char)
    (h : (validate_checks q).accepted = true) :
    findDangerousKeyword q = none ∧
    findDangerousFunction q = none ∧
    findInjectionPattern q = none ∧
    ∃ st rest, parse q = st :: rest ∧
      _is_select_statement st = true ∧
      _has_nested_dml st = false ∧
      _has_multiple_statements st = false := by
  unfold validate_checks at h
  split at h
  · exact absurd h (by simp)
  · rename_i hk
    split at h
    · exact absurd h (by simp)
    · rename_i hf
      split at h
      · exact absurd h (by simp)
      · rename_i hp
        split at h
        · exact absurd h (by simp)
        · rename_i st rest hparse
          split at h
          · exact absurd h (by simp)
          · split at h
            · exact absurd h (by simp)
            · rename_i hsel hstruct
              rw [Bool.not_eq_true', Bool.not_eq_false] at hsel
              rw [Bool.not_eq_true', Bool.not_eq_false] at hstruct
              unfold _validate_statement_structure at hstruct
              rw [Bool.and_eq_true, Bool.not_eq_true', Bool.not_eq_true']
                at hstruct
              exact ⟨hk, hf, hp, st, rest, hparse, hsel,
                hstruct.1, hstruct.2⟩

/-- `validate_sql` is the check chain on the normalized query. -/
theorem validate_sql_eq_checks (sql_query : List Char) :
    validate_sql sql_query =
      validate_checks (pyUpper (pyStrip sql_query)) := rfl

end SQLSecurityValidator

/-! ## Claim theorems (first batch) -/

/-- Claim C1: for every SQL string the safety validator rejects,
`DatabaseManager.execute_query` returns a failure carrying the rejection
reason, with no warehouse connection acquired and nothing executed —
validator-rejected SQL never reaches the database layer. -/
theorem rejected_sql_never_reaches_database (b : Backend) (sql : List Char)
    (h : (SQLSecurityValidator.validate_sql sql).accepted = false) :
    DatabaseManager.execute_query b sql =
      ⟨false, none, (SQLSecurityValidator.validate_sql sql).reason, false⟩ := by
  unfold DatabaseManager.execute_query
  simp [h]

/-- Witness for C1 at the concrete rejected query `DROP TABLE USERS`. -/
theorem rejected_sql_never_reaches_database_witness :
    DatabaseManager.execute_query idleBackend "DROP TABLE USERS".toList =
      ⟨false, none,
       (SQLSecurityValidator.validate_sql "DROP TABLE USERS".toList).reason,
       false⟩ :=
  rejected_sql_never_reaches_database idleBackend _ (by decide)

/-- Claim C4: whenever the first parsed statement's token tree contains,
at any depth, a DML token other than `SELECT`, `validate_sql` rejects —
even when the outermost statement is a SELECT. -/
theorem nested_dml_rejected (sql : List Char)
    (h : SQLSecurityValidator.firstStmtHasNestedDml
           (pyUpper (pyStrip sql)) = true) :
    (SQLSecurityValidator.validate_sql sql).accepted = false := by
  rw [SQLSecurityValidator.validate_sql_eq_checks]
  by_contra hne
  rw [Bool.not_eq_false] at hne
  obtain ⟨-, -, -, st, rest, hparse, -, hnd, -⟩ :=
    SQLSecurityValidator.validate_checks_accepted_inv _ hne
  unfold SQLSecurityValidator.firstStmtHasNestedDml at h
  rw [hparse] at h
  simp only [hnd] at h
  exact absurd h (by simp)

/-- Witness for C4 at `SELECT (DELETE FROM T)`: a SELECT-led statement
with a nested `DELETE` DML token. -/
theorem nested_dml_rejected_witness :
    SQLSecurityValidator.firstStmtHasNestedDml
        (pyUpper (pyStrip "SELECT (DELETE FROM T)".toList)) = true ∧
    (SQLSecurityValidator.validate_sql
        "SELECT (DELETE FROM T)".toList).accepted = false :=
  ⟨by decide, nested_dml_rejected _ (by decide)⟩

/-- Claim C8: `format_results` with `max_rows = 100` displays exactly the
(value-converted) first `min 100 n` rows, in input order (a prefix of the
converted input), reports the true total row count, and sets `truncated`
exactly when the input exceeds 100 rows. -/
theorem format_results_bounds (results : List Row) :
    (QueryFormatter.format_results results 100).data =
      (results.take 100).map QueryFormatter.convertRow ∧
    (QueryFormatter.format_results results 100).truncated =
      decide (100 < results.length) ∧
    (QueryFormatter.format_results results 100).row_count =
      results.length ∧
    (QueryFormatter.format_results results 100).data.length =
      min 100 results.length ∧
    (QueryFormatter.format_results results 100).data <+:
      results.map QueryFormatter.convertRow := by
  have hdata : (QueryFormatter.format_results results 100).data =
      (results.take 100).map QueryFormatter.convertRow := by
    cases results with
    | nil => simp [QueryFormatter.format_results]
    | cons a l =>
      by_cases h : 100 < (a :: l).length
      · have h' : 100 < l.length + 1 := by simpa using h
        simp [QueryFormatter.format_results, h, h', List.map_take]
      · simp [QueryFormatter.format_results, h,
          List.take_of_length_le (not_lt.mp h)]
  have htrunc : (QueryFormatter.format_results results 100).truncated =
      decide (100 < results.length) := by
    cases results with
    | nil => simp [QueryFormatter.format_results]
    | cons a l => simp [QueryFormatter.format_results]
  have hcount : (QueryFormatter.format_results results 100).row_count =
      results.length := by
    cases results with
    | nil => simp [QueryFormatter.format_results]
    | cons a l => simp [QueryFormatter.format_results]
  refine ⟨hdata, htrunc, hcount, ?_, ?_⟩
  · rw [hdata, List.length_map, List.length_take]
  · rw [hdata]
    exact (List.take_prefix _ _).map _

/-- Claim C9: the validator is a total function of the input (in the
model, the `try` body always returns a verdict), and the `except`
wrapper maps any escaping internal exception to a rejection — the
validator fails closed even on internal error. -/
theorem validator_total_and_fail_closed (sql_query e : List Char) :
    SQLSecurityValidator.validate_sql sql_query =
      SQLSecurityValidator.validate_handler
        (SQLSecurityValidator.validate_body sql_query) ∧
    SQLSecurityValidator.validate_body sql_query =
      .ok (SQLSecurityValidator.validate_checks (pyUpper (pyStrip sql_query))) ∧
    (SQLSecurityValidator.validate_handler (Except.error e)).accepted = false ∧
    (SQLSecurityValidator.validate_handler (Except.error e)).reason =
      SQLSecurityValidator.validationErrorMsg e :=
  ⟨rfl, rfl, rfl, rfl⟩

/-- Claim C3 (evaluation): the multi-statement rule as implemented.  Two
semicolon-delimited SELECT statements are ACCEPTED (only the first parsed
statement, which contains a single `;`, is inspected); a single SELECT
whose string literals contain two semicolons is REJECTED (every `;`
character of the statement text is counted, including inside literals,
contrary to the comment in `_has_multiple_statements`); a single SELECT
with one trailing separator is accepted. -/
theorem multi_statement_rule_eval :
    SQLSecurityValidator.validate_sql "SELECT 1; SELECT 2;".toList =
      ⟨true, "Query is safe".toList⟩ ∧
    SQLSecurityValidator.validate_sql
        "SELECT 'A;B' FROM T WHERE C = 'D;E'".toList =
      ⟨false, "Query structure validation failed".toList⟩ ∧
    SQLSecurityValidator.validate_sql "SELECT 1;".toList =
      ⟨true, "Query is safe".toList⟩ := by
  refine ⟨?_, ?_, ?_⟩ <;> rfl

/-- Claim C6 (evaluation): a turn whose generated SQL contains `DELETE`
is rejected by the gate, nothing is executed (no connection acquired,
no rows), yet the `QueryLog` audit record created for the turn carries
`is_safe = true` — `create_chat_response` hard-codes it. -/
theorem unsafe_turn_audit_record_eval :
    (SQLSecurityValidator.validate_sql
        "DELETE FROM PLAYERS;".toList).accepted = false ∧
    (DatabaseManager.execute_query idleBackend
        "DELETE FROM PLAYERS;".toList).connectionAcquired = false ∧
    (ChatService.process_user_message deleteTurnGen idleBackend
        (fun _ => [])).toOption.map
      (fun rd => (rd.execution_success, rd.results,
        (ChatService.create_chat_response
          "delete all players".toList rd).is_safe)) =
      some (false, none, true) := by
  refine ⟨by rfl, by rfl, by rfl⟩

/-- Claim C7 (evaluation): on a document whose only column entry lacks
`name`, `load_schema_from_yaml`'s transformation SUCCEEDS, keeping the
defective column with an empty-string name (rather than failing with a
validation error), while the separate `validate_schema_file` is what
names the defect. -/
theorem schema_load_keeps_nameless_column :
    SchemaManager.load_schema_transform docMissingColName =
      [(.str "T".toList,
        [⟨.str [], .str "varchar(255)".toList, .bool true, .str [],
          .str "x".toList⟩])] ∧
    SchemaManager.validate_schema_data docMissingColName =
      (false, "Column 0 in table 'T' missing 'name' field".toList) :=
  ⟨rfl, rfl⟩

/-- Claim C10 (evaluation): `_clean_sql_query` is not idempotent — a
leading run of six backticks leaves a fence marker in the output, and a
second application strips further. -/
theorem clean_sql_query_not_idempotent :
    OpenAIService._clean_sql_query
        (OpenAIService._clean_sql_query "`````` SELECT".toList) ≠
      OpenAIService._clean_sql_query "`````` SELECT".toList := by
  decide

/-! ## Whitespace-stripping lemmas (for the amended C10 and for C2) -/

/-- The head of `dropWhile p l`, when present, fails `p`. -/
theorem dropWhile_head_not {p : Char → Bool} {l : List Char} {c : Char}
    (h : (l.dropWhile p).head? = some c) : p c = false := by
  have hw := List.head?_dropWhile_not p l
  rw [h] at hw
  exact hw

/-- Right-stripping leaves a prefix of the left-stripped list. -/
theorem pyStrip_append_ws (s : List Char) :
    pyStrip s ++ ((s.dropWhile pyIsSpace).reverse.takeWhile pyIsSpace).reverse
      = s.dropWhile pyIsSpace := by
  unfold pyStrip
  rw [← List.reverse_append, List.takeWhile_append_dropWhile,
    List.reverse_reverse]

/-- The last character of a stripped string is not whitespace. -/
theorem pyStrip_getLast?_not_space {s : List Char} {c : Char}
    (h : (pyStrip s).getLast? = some c) : pyIsSpace c = false := by
  unfold pyStrip at h
  rw [List.getLast?_reverse] at h
  exact dropWhile_head_not h

/-- The first character of a stripped string is not whitespace. -/
theorem pyStrip_head?_not_space {s : List Char} {c : Char}
    (h : (pyStrip s).head? = some c) : pyIsSpace c = false := by
  have hdec := pyStrip_append_ws s
  cases hps : pyStrip s with
  | nil => rw [hps] at h; exact absurd h (by simp)
  | cons a t =>
      rw [hps] at h hdec
      have hu : (s.dropWhile pyIsSpace).head? = some a := by
        rw [← hdec]; rfl
      have ha := dropWhile_head_not hu
      simp only [List.head?_cons, Option.some.injEq] at h
      rw [← h]
      exact ha

/-- Every string splits as whitespace, its stripped core, whitespace. -/
theorem pyStrip_decomp (s : List Char) :
    ∃ w₁ w₂, s = w₁ ++ pyStrip s ++ w₂ ∧
      w₁.all pyIsSpace = true ∧ w₂.all pyIsSpace = true := by
  refine ⟨s.takeWhile pyIsSpace,
    ((s.dropWhile pyIsSpace).reverse.takeWhile pyIsSpace).reverse,
    ?_, List.all_takeWhile, ?_⟩
  · conv_lhs =>
      rw [← List.takeWhile_append_dropWhile (p := pyIsSpace) (l := s),
        ← pyStrip_append_ws s]
    rw [List.append_assoc]
  · rw [List.all_reverse]
    exact List.all_takeWhile

/-- A string with non-whitespace ends is unchanged by stripping. -/
theorem pyStrip_eq_self {x : List Char}
    (h1 : ∀ c, x.head? = some c → pyIsSpace c = false)
    (h2 : ∀ c, x.getLast? = some c → pyIsSpace c = false) :
    pyStrip x = x := by
  have hd : x.dropWhile pyIsSpace = x := by
    cases x with
    | nil => rfl
    | cons a t => rw [List.dropWhile_cons, h1 a rfl]; simp
  have hd2 : x.reverse.dropWhile pyIsSpace = x.reverse := by
    cases hx : x.reverse with
    | nil => rfl
    | cons a t =>
        have ha : x.getLast? = some a := by
          rw [← List.head?_reverse, hx, List.head?_cons]
        rw [List.dropWhile_cons, h2 a ha]
        simp
  unfold pyStrip
  rw [hd, hd2, List.reverse_reverse]

/-- A one-character suffix pins down the last character. -/
theorem isSuffix_single_getLast {x : List Char} {c : Char}
    (h : [c].isSuffixOf x = true) : x.getLast? = some c := by
  rw [List.isSuffixOf_iff_suffix] at h
  obtain ⟨t, rfl⟩ := h
  exact List.getLast?_concat _

/-- `_clean_sql_query` always terminates its output with `;`. -/
theorem clean_sql_endsWith_semi (s : List Char) :
    [';'].isSuffixOf (OpenAIService._clean_sql_query s) = true := by
  unfold OpenAIService._clean_sql_query
  by_cases hs :
      [';'].isSuffixOf (pyStrip (OpenAIService.stripFences s)) = true
  · rw [if_pos hs]; exact hs
  · rw [if_neg hs, List.isSuffixOf_iff_suffix]
    exact List.suffix_append _ _

/-- The output of `_clean_sql_query` never starts with whitespace. -/
theorem clean_sql_head?_not_space {s : List Char} {c : Char}
    (h : (OpenAIService._clean_sql_query s).head? = some c) :
    pyIsSpace c = false := by
  unfold OpenAIService._clean_sql_query at h
  by_cases hs :
      [';'].isSuffixOf (pyStrip (OpenAIService.stripFences s)) = true
  · rw [if_pos hs] at h
    exact pyStrip_head?_not_space h
  · rw [if_neg hs] at h
    cases h4 : pyStrip (OpenAIService.stripFences s) with
    | nil =>
        rw [h4] at h
        simp only [List.nil_append, List.head?_cons,
          Option.some.injEq] at h
        subst h
        decide
    | cons a t =>
        rw [h4] at h
        simp only [List.cons_append, List.head?_cons,
          Option.some.injEq] at h
        subst h
        exact pyStrip_head?_not_space (s := OpenAIService.stripFences s)
          (by rw [h4]; rfl)

/-- Claim C10 (amended): the cleaned query always ends in `;`, the
terminator is appended only when the fence-stripped, trimmed text does
not already end in `;`, and cleaning is idempotent on every input whose
cleaned result does not itself begin with a fence marker. -/
theorem clean_sql_query_spec (s : List Char) :
    [';'].isSuffixOf (OpenAIService._clean_sql_query s) = true ∧
    ([';'].isSuffixOf (pyStrip (OpenAIService.stripFences s)) = true →
      OpenAIService._clean_sql_query s =
        pyStrip (OpenAIService.stripFences s)) ∧
    ("```".toList.isPrefixOf (OpenAIService._clean_sql_query s) = false →
      OpenAIService._clean_sql_query (OpenAIService._clean_sql_query s) =
        OpenAIService._clean_sql_query s) := by
  refine ⟨clean_sql_endsWith_semi s, ?_, ?_⟩
  · intro h
    unfold OpenAIService._clean_sql_query
    rw [if_pos h]
  · intro hnf
    have hsemi := clean_sql_endsWith_semi s
    have hlast : (OpenAIService._clean_sql_query s).getLast? = some ';' :=
      isSuffix_single_getLast hsemi
    have hnf6 : "```sql".toList.isPrefixOf
        (OpenAIService._clean_sql_query s) = false := by
      by_contra hc
      rw [Bool.not_eq_false, List.isPrefixOf_iff_prefix] at hc
      rw [← Bool.not_eq_true, List.isPrefixOf_iff_prefix] at hnf
      exact hnf (List.IsPrefix.trans ⟨"sql".toList, rfl⟩ hc)
    have hnsuf : "```".toList.isSuffixOf
        (OpenAIService._clean_sql_query s) = false := by
      by_contra hc
      rw [Bool.not_eq_false, List.isSuffixOf_iff_suffix] at hc
      obtain ⟨t, ht⟩ := hc
      have : (OpenAIService._clean_sql_query s).getLast? = some '`' := by
        rw [← ht, show t ++ "```".toList = (t ++ ['`', '`']) ++ ['`'] by
          simp]
        exact List.getLast?_concat _
      rw [hlast] at this
      exact absurd this (by decide)
    have hfence : OpenAIService.stripFences
        (OpenAIService._clean_sql_query s) =
        OpenAIService._clean_sql_query s := by
      simp only [OpenAIService.stripFences, hnf6, hnf, hnsuf,
        Bool.false_eq_true, if_false]
    have hstrip : pyStrip (OpenAIService._clean_sql_query s) =
        OpenAIService._clean_sql_query s := by
      refine pyStrip_eq_self (fun c hc => clean_sql_head?_not_space hc)
        (fun c hc => ?_)
      rw [hlast] at hc
      cases hc
      decide
    conv_lhs => rw [OpenAIService._clean_sql_query]
    rw [hfence, hstrip, if_pos hsemi]

/-- Witness for the amended C10 at `SELECT 1;`: the trimmed text already
ends in `;` (nothing appended) and the result is a fixed point. -/
theorem clean_sql_query_spec_witness :
    [';'].isSuffixOf
      (OpenAIService._clean_sql_query "SELECT 1;".toList) = true ∧
    OpenAIService._clean_sql_query "SELECT 1;".toList =
      pyStrip (OpenAIService.stripFences "SELECT 1;".toList) ∧
    OpenAIService._clean_sql_query
        (OpenAIService._clean_sql_query "SELECT 1;".toList) =
      OpenAIService._clean_sql_query "SELECT 1;".toList :=
  ⟨(clean_sql_query_spec "SELECT 1;".toList).1,
   (clean_sql_query_spec "SELECT 1;".toList).2.1 (by decide),
   (clean_sql_query_spec "SELECT 1;".toList).2.2 (by decide)⟩

/-! ## Whole-word matching lemmas (for C2) -/

/-- Whitespace characters are not word characters. -/
theorem pyIsSpace_not_word {c : Char} (h : pyIsSpace c = true) :
    isWordChar c = false := by
  simp only [pyIsSpace, Bool.or_eq_true, decide_eq_true_eq] at h
  rcases h with ((((h | h) | h) | h) | h) | h <;> subst h <;> decide

/-- `wwFrom` depends on `prev` only through its word-boundary status. -/
theorem wwFrom_congr {kw : List Char} {p q : Option Char} (s : List Char)
    (h : prevOk p = prevOk q) :
    wwFrom kw p s = wwFrom kw q s := by
  cases s with
  | nil => rfl
  | cons c rest => simp only [wwFrom, h]

/-- A word-leading keyword never starts a whole-word match at a
whitespace character. -/
theorem atWordStart_head_space {kw s : List Char} {c k0 : Char}
    (hk0 : kw.head? = some k0) (hw0 : isWordChar k0 = true)
    (hc : pyIsSpace c = true) :
    atWordStart kw (c :: s) = false := by
  cases kw with
  | nil => exact absurd hk0 (by simp)
  | cons a t =>
      simp only [List.head?_cons, Option.some.injEq] at hk0
      have hw0' : isWordChar a = true := by rw [hk0]; exact hw0
      have hcw : isWordChar c = false := pyIsSpace_not_word hc
      have hne : (a == c) = false := by
        rw [beq_eq_false_iff_ne]
        intro hcc
        rw [hcc, hcw] at hw0'
        exact absurd hw0' (by simp)
      simp only [atWordStart, List.isPrefixOf, hne, Bool.false_and]

/-- A word-leading keyword has no whole-word match inside pure
whitespace. -/
theorem wwFrom_all_space {kw s : List Char} {prev : Option Char}
    {k0 : Char} (hk0 : kw.head? = some k0) (hw0 : isWordChar k0 = true)
    (hs : s.all pyIsSpace = true) : wwFrom kw prev s = false := by
  induction s generalizing prev with
  | nil => rfl
  | cons c rest ih =>
      rw [List.all_cons, Bool.and_eq_true] at hs
      simp only [wwFrom]
      rw [ih hs.2, Bool.or_false, atWordStart_head_space hk0 hw0 hs.1,
        Bool.and_false]

/-- Keywords whose endpoints are word characters: appending trailing
whitespace does not change whether the keyword matches whole-word at the
current position. -/
theorem atWordStart_append_ws {kw x w : List Char} {kl : Char}
    (hkl : kw.getLast? = some kl) (hwl : isWordChar kl = true)
    (hws : w.all pyIsSpace = true) :
    atWordStart kw (x ++ w) = atWordStart kw x := by
  by_cases hpre : kw.isPrefixOf x = true
  · have hpreP : kw <+: x := List.isPrefixOf_iff_prefix.mp hpre
    have hle : kw.length ≤ x.length := hpreP.length_le
    have hpre' : kw.isPrefixOf (x ++ w) = true := by
      rw [List.isPrefixOf_iff_prefix]
      exact hpreP.trans (List.prefix_append x w)
    simp only [atWordStart, hpre, hpre', Bool.true_and,
      List.drop_append_of_le_length hle]
    cases hdrop : x.drop kw.length with
    | nil =>
        simp only [List.nil_append]
        cases w with
        | nil => rfl
        | cons a t =>
            rw [List.all_cons, Bool.and_eq_true] at hws
            simp [pyIsSpace_not_word hws.1]
    | cons a t => rfl
  · have hpre' : kw.isPrefixOf (x ++ w) = false := by
      by_contra hc
      rw [Bool.not_eq_false, List.isPrefixOf_iff_prefix] at hc
      by_cases hlen : kw.length ≤ x.length
      · have : kw <+: x :=
          List.prefix_of_prefix_length_le hc (List.prefix_append x w) hlen
        rw [← List.isPrefixOf_iff_prefix] at this
        exact hpre this
      · have hxp : x <+: kw :=
          List.prefix_of_prefix_length_le (List.prefix_append x w) hc
            (Nat.le_of_not_le hlen)
        obtain ⟨kr, hkr⟩ := hxp
        have hkrne : kr ≠ [] := by
          intro hnil
          rw [hnil, List.append_nil] at hkr
          rw [hkr] at hlen
          exact hlen (Nat.le_refl _)
        obtain ⟨t, ht⟩ := hc
        rw [← hkr, List.append_assoc] at ht
        have hkrw : kr ++ t = w := List.append_cancel_left ht
        have hklr : kr.getLast? = some kl := by
          rw [← hkr, List.getLast?_append] at hkl
          cases hg : kr.getLast? with
          | none =>
              rw [List.getLast?_eq_none_iff] at hg
              exact absurd hg hkrne
          | some c' =>
              rw [hg, Option.or_some] at hkl
              exact hkl
        have hklmem : kl ∈ w := by
          rw [← hkrw]
          exact List.mem_append_left t (List.mem_of_getLast?_eq_some hklr)
        rw [List.all_eq_true] at hws
        rw [pyIsSpace_not_word (hws kl hklmem)] at hwl
        exact absurd hwl (by simp)
    simp only [atWordStart, hpre, hpre', Bool.false_and]

/-- Trailing whitespace is invisible to the whole-word scan. -/
theorem wwFrom_append_ws {kw x w : List Char} {k0 kl : Char}
    (hk0 : kw.head? = some k0) (hw0 : isWordChar k0 = true)
    (hkl : kw.getLast? = some kl) (hwl : isWordChar kl = true)
    (hws : w.all pyIsSpace = true) (prev : Option Char) :
    wwFrom kw prev (x ++ w) = wwFrom kw prev x := by
  induction x generalizing prev with
  | nil =>
      rw [List.nil_append, wwFrom_all_space hk0 hw0 hws]
      rfl
  | cons c rest ih =>
      rw [List.cons_append]
      simp only [wwFrom]
      rw [ih (some c),
        show c :: (rest ++ w) = (c :: rest) ++ w from rfl,
        atWordStart_append_ws hkl hwl hws]

/-- Leading whitespace is invisible to the whole-word scan. -/
theorem containsWholeWord_append_ws_left {kw w s : List Char} {k0 : Char}
    (hk0 : kw.head? = some k0) (hw0 : isWordChar k0 = true)
    (hws : w.all pyIsSpace = true) :
    containsWholeWord kw (w ++ s) = containsWholeWord kw s := by
  induction w with
  | nil => rfl
  | cons c rest ih =>
      rw [List.all_cons, Bool.and_eq_true] at hws
      rw [List.cons_append]
      unfold containsWholeWord
      simp only [wwFrom]
      rw [atWordStart_head_space hk0 hw0 hws.1, Bool.and_false,
        Bool.false_or,
        wwFrom_congr (rest ++ s)
          (show prevOk (some c) = prevOk none by
            simp [prevOk, pyIsSpace_not_word hws.1])]
      exact ih hws.2

/-- Whole-word occurrence is invariant under Python's `strip`, for
keywords with word-character endpoints (all blocklist keywords). -/
theorem containsWholeWord_pyStrip {kw : List Char} (s : List Char)
    {k0 kl : Char}
    (hk0 : kw.head? = some k0) (hw0 : isWordChar k0 = true)
    (hkl : kw.getLast? = some kl) (hwl : isWordChar kl = true) :
    containsWholeWord kw (pyStrip s) = containsWholeWord kw s := by
  obtain ⟨w₁, w₂, hdec, h1, h2⟩ := pyStrip_decomp s
  conv_rhs => rw [hdec]
  rw [List.append_assoc,
    containsWholeWord_append_ws_left hk0 hw0 h1]
  unfold containsWholeWord
  rw [wwFrom_append_ws hk0 hw0 hkl hwl h2]

/-- Uppercasing fixes whitespace characters. -/
theorem toUpper_space_id {c : Char} (h : pyIsSpace c = true) :
    c.toUpper = c := by
  simp only [pyIsSpace, Bool.or_eq_true, decide_eq_true_eq] at h
  rcases h with ((((h | h) | h) | h) | h) | h <;> subst h <;> decide

/-- The uppercased input splits as whitespace, the normalized query
(uppercased stripped input), whitespace. -/
theorem pyUpper_pyStrip_decomp (s : List Char) :
    ∃ w₁ w₂, pyUpper s = w₁ ++ pyUpper (pyStrip s) ++ w₂ ∧
      w₁.all pyIsSpace = true ∧ w₂.all pyIsSpace = true := by
  obtain ⟨w₁, w₂, hdec, h1, h2⟩ := pyStrip_decomp s
  refine ⟨w₁, w₂, ?_, h1, h2⟩
  conv_lhs => rw [hdec]
  unfold pyUpper
  rw [List.map_append, List.map_append]
  rw [List.all_eq_true] at h1 h2
  congr 2
  · exact (List.map_congr_left
      (fun c hc => toUpper_space_id (h1 c hc))).trans (List.map_id w₁)
  · exact (List.map_congr_left
      (fun c hc => toUpper_space_id (h2 c hc))).trans (List.map_id w₂)

/-- Whole-word occurrence in the validator's normalized query equals
whole-word occurrence in the uppercased raw input. -/
theorem containsWholeWord_norm {kw : List Char} (s : List Char)
    {k0 kl : Char}
    (hk0 : kw.head? = some k0) (hw0 : isWordChar k0 = true)
    (hkl : kw.getLast? = some kl) (hwl : isWordChar kl = true) :
    containsWholeWord kw (pyUpper (pyStrip s)) =
      containsWholeWord kw (pyUpper s) := by
  obtain ⟨w₁, w₂, hdec, h1, h2⟩ := pyUpper_pyStrip_decomp s
  rw [hdec, List.append_assoc,
    containsWholeWord_append_ws_left hk0 hw0 h1]
  unfold containsWholeWord
  rw [wwFrom_append_ws hk0 hw0 hkl hwl h2]

/-- Every blocklisted keyword starts and ends with a word character. -/
theorem mem_keywords_endpoints {kw : List Char}
    (hmem : kw ∈ SQLSecurityValidator.DANGEROUS_KEYWORDS) :
    ∃ k0 kl, kw.head? = some k0 ∧ isWordChar k0 = true ∧
      kw.getLast? = some kl ∧ isWordChar kl = true := by
  fin_cases hmem <;> exact ⟨_, _, rfl, by decide, rfl, by decide⟩

/-- Claim C2: any input containing a whole-word, word-boundary-anchored
occurrence of a blocklisted keyword in any letter case is rejected, with
a reason naming a blocklisted keyword that occurs whole-word in the
normalized query; and when no blocklisted keyword occurs whole-word
(e.g. only as a substring of a longer identifier), the keyword rule does
not fire at all. -/
theorem keyword_blocklist_spec :
    (∀ sql kw, kw ∈ SQLSecurityValidator.DANGEROUS_KEYWORDS →
      containsWholeWord kw (pyUpper sql) = true →
      (SQLSecurityValidator.validate_sql sql).accepted = false ∧
      ∃ kw', kw' ∈ SQLSecurityValidator.DANGEROUS_KEYWORDS ∧
        containsWholeWord kw' (pyUpper (pyStrip sql)) = true ∧
        (SQLSecurityValidator.validate_sql sql).reason =
          SQLSecurityValidator.keywordMsg kw') ∧
    (∀ sql, (∀ kw ∈ SQLSecurityValidator.DANGEROUS_KEYWORDS,
        containsWholeWord kw (pyUpper sql) = false) →
      SQLSecurityValidator.findDangerousKeyword
        (pyUpper (pyStrip sql)) = none) := by
  constructor
  · intro sql kw hmem hocc
    obtain ⟨k0, kl, hk0, hw0, hkl, hwl⟩ := mem_keywords_endpoints hmem
    have hq : containsWholeWord kw (pyUpper (pyStrip sql)) = true := by
      rw [containsWholeWord_norm sql hk0 hw0 hkl hwl]
      exact hocc
    have hfind : ∃ kw', SQLSecurityValidator.findDangerousKeyword
        (pyUpper (pyStrip sql)) = some kw' := by
      rw [← Option.isSome_iff_exists]
      unfold SQLSecurityValidator.findDangerousKeyword
      rw [List.find?_isSome]
      exact ⟨kw, hmem, hq⟩
    obtain ⟨kw', hfind⟩ := hfind
    have hfind' := hfind
    unfold SQLSecurityValidator.findDangerousKeyword at hfind'
    refine ⟨?_, kw', List.mem_of_find?_eq_some hfind', ?_, ?_⟩
    · rw [SQLSecurityValidator.validate_sql_eq_checks]
      unfold SQLSecurityValidator.validate_checks
      rw [hfind]
    · have := List.find?_some hfind'
      simpa using this
    · rw [SQLSecurityValidator.validate_sql_eq_checks]
      unfold SQLSecurityValidator.validate_checks
      rw [hfind]
  · intro sql h
    unfold SQLSecurityValidator.findDangerousKeyword
    rw [List.find?_eq_none]
    intro kw hmem hc
    obtain ⟨k0, kl, hk0, hw0, hkl, hwl⟩ := mem_keywords_endpoints hmem
    rw [containsWholeWord_norm sql hk0 hw0 hkl hwl, h kw hmem] at hc
    exact absurd hc (by simp)

/-- Witness for C2: `Delete from players` (lower case, whole-word
`DELETE`) is rejected naming a keyword; `SELECT UPDATED_AT FROM
CREATEDTBL` (keywords only as identifier substrings) does not trip the
keyword rule. -/
theorem keyword_blocklist_spec_witness :
    ((SQLSecurityValidator.validate_sql
        "Delete from players".toList).accepted = false ∧
      ∃ kw', kw' ∈ SQLSecurityValidator.DANGEROUS_KEYWORDS ∧
        containsWholeWord kw'
          (pyUpper (pyStrip "Delete from players".toList)) = true ∧
        (SQLSecurityValidator.validate_sql
          "Delete from players".toList).reason =
          SQLSecurityValidator.keywordMsg kw') ∧
    SQLSecurityValidator.findDangerousKeyword
      (pyUpper (pyStrip "SELECT UPDATED_AT FROM CREATEDTBL".toList)) =
      none :=
  ⟨keyword_blocklist_spec.1 "Delete from players".toList
      "DELETE".toList (by decide) (by decide),
   keyword_blocklist_spec.2 "SELECT UPDATED_AT FROM CREATEDTBL".toList
      (by decide)⟩

/-! ## Tokenizer and parser lemmas (for C5) -/

namespace Sqlparse

/-- `takeLit` consumes without losing characters. -/
theorem takeLit_append (close : Char) (s : List Char) :
    (takeLit close s).1 ++ (takeLit close s).2 = s := by
  induction s with
  | nil => rfl
  | cons c rest ih =>
      simp only [takeLit]
      by_cases hc : c = close
      · rw [if_pos hc]; rfl
      · rw [if_neg hc]
        simpa using ih

/-- A terminated literal ends with its closing quote. -/
theorem takeLit_closed {close : Char} {s : List Char}
    (h : (takeLit close s).2 ≠ []) :
    (takeLit close s).1.getLast? = some close := by
  induction s with
  | nil => exact absurd rfl h
  | cons c rest ih =>
      simp only [takeLit] at h ⊢
      by_cases hc : c = close
      · rw [if_pos hc]
        simp [hc]
      · rw [if_neg hc] at h ⊢
        simp only at h ⊢
        have := ih h
        cases hg : (takeLit close rest).1 with
        | nil => rw [hg] at this; exact absurd this (by simp)
        | cons a t =>
            rw [hg] at this
            rw [show c :: a :: t = [c] ++ a :: t from rfl,
              List.getLast?_append, this]
            rfl

/-- Token-sequence values concatenate. -/
theorem toksVal_append (a b : List Tok) :
    toksVal (a ++ b) = toksVal a ++ toksVal b := by
  induction a with
  | nil => rfl
  | cons t ts ih =>
      simp only [List.cons_append, toksVal, List.append_eq, ih,
        List.append_assoc]

/-- The tokenizer loses no characters: token values reassemble the
input. -/
theorem tokenizeF_val : ∀ (fuel : Nat) (s : List Char),
    s.length ≤ fuel → toksVal (tokenizeF fuel s) = s := by
  intro fuel
  induction fuel with
  | zero =>
      intro s h
      rw [Nat.le_zero, List.length_eq_zero] at h
      subst h
      rfl
  | succ fuel ih =>
      intro s h
      cases s with
      | nil => rfl
      | cons c rest =>
          rw [List.length_cons, Nat.succ_le_succ_iff] at h
          simp only [tokenizeF]
          by_cases hq : (c = '\'' || c = '"') = true
          · rw [if_pos hq]
            simp only [toksVal, tokVal]
            have happ := takeLit_append c rest
            have hlen : (takeLit c rest).2.length ≤ fuel := by
              have hl := congrArg List.length happ
              rw [List.length_append] at hl
              omega
            rw [ih _ hlen, List.cons_append, happ]
          · rw [if_neg hq]
            by_cases hw : isWordChar c = true
            · rw [if_pos hw]
              have hn : isNameChar c = true := by
                simp [isNameChar, hw]
              have hrest' : ((c :: rest).dropWhile isNameChar).length ≤
                  fuel := by
                rw [List.dropWhile_cons, if_pos hn]
                exact Nat.le_trans
                  (List.dropWhile_suffix isNameChar).length_le h
              by_cases hdml :
                  ((c :: rest).takeWhile isNameChar ∈ dmlKeywords ∧
                    ((c :: rest).dropWhile isNameChar).head? ≠ some '(')
              · rw [if_pos hdml]
                simp only [toksVal, tokVal]
                rw [ih _ hrest', List.takeWhile_append_dropWhile]
              · rw [if_neg hdml]
                simp only [toksVal, tokVal]
                rw [ih _ hrest', List.takeWhile_append_dropWhile]
            · rw [if_neg hw]
              simp only [toksVal, tokVal]
              rw [ih rest h]
              rfl

/-- `tokenize` reassembles to the input. -/
theorem tokenize_val (q : List Char) : toksVal (tokenize q) = q :=
  tokenizeF_val q.length q (Nat.le_refl _)

/-- Statement splitting never drops a statement of a nonempty stream. -/
theorem splitStatements_ne_nil (t : Tok) (rest : List Tok) :
    splitStatements (t :: rest) ≠ [] := by
  simp only [splitStatements]
  by_cases h : isPunctOf ';' t = true
  · rw [if_pos h]; simp
  · rw [if_neg h]
    cases splitStatements rest <;> simp

/-- Statement splitting loses no tokens. -/
theorem splitStatements_flatten (ts : List Tok) :
    (splitStatements ts).flatten = ts := by
  induction ts with
  | nil => rfl
  | cons t rest ih =>
      simp only [splitStatements]
      by_cases h : isPunctOf ';' t = true
      · rw [if_pos h]
        simp only [List.flatten_cons]
        rw [show ([t] : List Tok) ++ (splitStatements rest).flatten =
          t :: (splitStatements rest).flatten from rfl, ih]
      · rw [if_neg h]
        cases hsp : splitStatements rest with
        | nil =>
            cases rest with
            | nil => rfl
            | cons t' r' => exact absurd hsp (splitStatements_ne_nil t' r')
        | cons s ss =>
            simp only [List.flatten_cons]
            rw [hsp] at ih
            simp only [List.flatten_cons] at ih
            simp [ih]

/-- Tokens of a split statement come from the token stream. -/
theorem mem_of_mem_splitStatements {ts : List Tok} {st : List Tok}
    {t' : Tok} (hst : st ∈ splitStatements ts) (ht : t' ∈ st) :
    t' ∈ ts := by
  rw [← splitStatements_flatten ts]
  exact List.mem_flatten.mpr ⟨st, hst, ht⟩

/-- Grouping loses no characters. -/
theorem groupF_val (fuel : Nat) : ∀ ts : List Tok,
    toksVal (groupF fuel ts).1 ++ toksVal (groupF fuel ts).2 =
      toksVal ts := by
  induction fuel with
  | zero => intro ts; simp [groupF, toksVal]
  | succ fuel ih =>
      intro ts
      cases ts with
      | nil => rfl
      | cons t rest =>
          simp only [groupF]
          by_cases hcl : isPunctOf ')' t = true
          · rw [if_pos hcl]
            simp [toksVal]
          · rw [if_neg hcl]
            by_cases hop : isPunctOf '(' t = true
            · rw [if_pos hop]
              cases hp2 : (groupF fuel rest).2 with
              | nil =>
                  have h1 := ih rest
                  rw [hp2] at h1
                  simp only [toksVal] at h1
                  rw [List.append_nil] at h1
                  simp only [toksVal, tokVal]
                  rw [List.append_nil, h1]
                  simp
              | cons t2 rest2 =>
                  have h1 := ih rest
                  have h2 := ih rest2
                  rw [hp2] at h1
                  simp only [toksVal, tokVal, toksVal_append,
                    List.append_nil, List.append_assoc] at h1 ⊢
                  rw [h2, h1]
            · rw [if_neg hop]
              have h1 := ih rest
              simp only [toksVal]
              rw [List.append_assoc, h1]

/-- The tokenizer emits no group tokens. -/
theorem tokenizeF_no_group (fuel : Nat) : ∀ (s : List Char) (g : List Tok),
    Tok.group g ∉ tokenizeF fuel s := by
  induction fuel with
  | zero => intro s g h; exact absurd h (by simp [tokenizeF])
  | succ fuel ih =>
      intro s g h
      cases s with
      | nil => exact absurd h (by simp [tokenizeF])
      | cons c rest =>
          simp only [tokenizeF] at h
          by_cases hq : (c = '\'' || c = '"') = true
          · rw [if_pos hq] at h
            rcases List.mem_cons.mp h with heq | h
            · exact Tok.noConfusion heq
            · exact ih _ g h
          · rw [if_neg hq] at h
            by_cases hw : isWordChar c = true
            · rw [if_pos hw] at h
              by_cases hdml :
                  ((c :: rest).takeWhile isNameChar ∈ dmlKeywords ∧
                    ((c :: rest).dropWhile isNameChar).head? ≠ some '(')
              · rw [if_pos hdml] at h
                rcases List.mem_cons.mp h with heq | h
                · exact Tok.noConfusion heq
                · exact ih _ g h
              · rw [if_neg hdml] at h
                rcases List.mem_cons.mp h with heq | h
                · exact Tok.noConfusion heq
                · exact ih _ g h
            · rw [if_neg hw] at h
              rcases List.mem_cons.mp h with heq | h
              · exact Tok.noConfusion heq
              · exact ih _ g h

/-- Every DML keyword is a nonempty word starting with a word
character. -/
theorem dml_head_word {v : List Char} (h : v ∈ dmlKeywords) :
    ∃ k0 t, v = k0 :: t ∧ isWordChar k0 = true := by
  fin_cases h <;> exact ⟨_, _, rfl, by decide⟩

/-- Every non-SELECT DML keyword is on the dangerous-keyword
blocklist. -/
theorem dml_nonselect_dangerous {v : List Char} (h : v ∈ dmlKeywords)
    (hne : v ≠ "SELECT".toList) :
    v ∈ SQLSecurityValidator.DANGEROUS_KEYWORDS := by
  fin_cases h
  · exact absurd rfl hne
  all_goals decide

/-- A non-word boundary survives prepending `x` when `a` is nonempty or
`x` itself ends non-word. -/
theorem lastOk_append {x a : List Char}
    (hx : a = [] → ∀ c, x.getLast? = some c → isWordChar c = false)
    (ha : ∀ c, a.getLast? = some c → isWordChar c = false) :
    ∀ c, (x ++ a).getLast? = some c → isWordChar c = false := by
  intro c hc
  rw [List.getLast?_append] at hc
  cases hg : a.getLast? with
  | some g =>
      rw [hg, Option.or_some] at hc
      cases hc
      exact ha _ hg
  | none =>
      rw [hg, Option.none_or] at hc
      rw [List.getLast?_eq_none_iff] at hg
      subst hg
      exact hx rfl c hc

/-- A terminated string-literal token ends with its (non-word) quote. -/
theorem strLit_getLast {c : Char} {rest : List Char}
    (h : (takeLit c rest).2 ≠ []) :
    (c :: (takeLit c rest).1).getLast? = some c := by
  have hcl := takeLit_closed h
  rw [show c :: (takeLit c rest).1 = [c] ++ (takeLit c rest).1 from rfl,
    List.getLast?_append, hcl, Option.or_some]

/-- A character failing the name-run predicate is in particular not a
word character. -/
theorem not_nameChar_not_word {c : Char} (h : isNameChar c = false) :
    isWordChar c = false := by
  by_contra hb
  rw [Bool.not_eq_false] at hb
  rw [isNameChar, hb] at h
  simp at h

/-- Any DML token the tokenizer emits is one of the DML keywords and
occurs in the input at word boundaries. -/
theorem tokenizeF_dml (fuel : Nat) : ∀ (s v : List Char),
    s.length ≤ fuel → Tok.dml v ∈ tokenizeF fuel s →
    v ∈ dmlKeywords ∧ ∃ a b, s = a ++ v ++ b ∧
      (∀ c, a.getLast? = some c → isWordChar c = false) ∧
      (∀ c, b.head? = some c → isWordChar c = false) := by
  induction fuel with
  | zero =>
      intro s v hlen hmem
      rw [Nat.le_zero, List.length_eq_zero] at hlen
      subst hlen
      exact absurd hmem (by simp [tokenizeF])
  | succ fuel ih =>
      intro s v hlen hmem
      cases s with
      | nil => exact absurd hmem (by simp [tokenizeF])
      | cons c rest =>
          rw [List.length_cons, Nat.succ_le_succ_iff] at hlen
          simp only [tokenizeF] at hmem
          by_cases hq : (c = '\'' || c = '"') = true
          · rw [if_pos hq] at hmem
            rcases List.mem_cons.mp hmem with heq | hmem
            · exact Tok.noConfusion heq
            · have hp2ne : (takeLit c rest).2 ≠ [] := by
                intro hnil
                rw [hnil] at hmem
                cases fuel <;> exact absurd hmem (by simp [tokenizeF])
              have hlen2 : (takeLit c rest).2.length ≤ fuel := by
                have hl := congrArg List.length (takeLit_append c rest)
                rw [List.length_append] at hl
                omega
              obtain ⟨hv, a, b, hdec, hlast, hhead⟩ :=
                ih _ v hlen2 hmem
              refine ⟨hv, (c :: (takeLit c rest).1) ++ a, b, ?_, ?_, hhead⟩
              · have hres : c :: rest =
                    (c :: (takeLit c rest).1) ++ (takeLit c rest).2 := by
                  rw [List.cons_append, takeLit_append]
                rw [hres, hdec]
                simp [List.append_assoc]
              · refine lastOk_append (fun _ => ?_) hlast
                intro c' hc'
                rw [strLit_getLast hp2ne] at hc'
                cases hc'
                rcases Bool.or_eq_true _ _ |>.mp hq with h' | h' <;>
                  rw [decide_eq_true_eq] at h' <;> subst h' <;> decide
          · rw [if_neg hq] at hmem
            by_cases hw : isWordChar c = true
            · rw [if_pos hw] at hmem
              have hn : isNameChar c = true := by
                simp [isNameChar, hw]
              have hrest' : ((c :: rest).dropWhile isNameChar).length ≤
                  fuel := by
                rw [List.dropWhile_cons, if_pos hn]
                exact Nat.le_trans
                  (List.dropWhile_suffix isNameChar).length_le hlen
              have hdropword : ∀ c', ((c :: rest).dropWhile
                  isNameChar).head? = some c' → isWordChar c' = false :=
                fun c' hc' => not_nameChar_not_word (dropWhile_head_not hc')
              by_cases hdml :
                  ((c :: rest).takeWhile isNameChar ∈ dmlKeywords ∧
                    ((c :: rest).dropWhile isNameChar).head? ≠ some '(')
              · rw [if_pos hdml] at hmem
                rcases List.mem_cons.mp hmem with heq | hmem
                · cases heq
                  refine ⟨hdml.1, [], (c :: rest).dropWhile isNameChar,
                    by rw [List.nil_append,
                      List.takeWhile_append_dropWhile],
                    by intro c' hc'; exact absurd hc' (by simp),
                    hdropword⟩
                · obtain ⟨hv, a, b, hdec, hlast, hhead⟩ :=
                    ih _ v hrest' hmem
                  cases ha : a with
                  | nil =>
                      obtain ⟨k0, t0, hvk, hwk⟩ := dml_head_word hv
                      rw [ha, List.nil_append] at hdec
                      have : ((c :: rest).dropWhile isNameChar).head? =
                          some k0 := by
                        rw [hdec, hvk]
                        rfl
                      rw [hdropword k0 this] at hwk
                      exact absurd hwk (by simp)
                  | cons z a' =>
                      refine ⟨hv, (c :: rest).takeWhile isNameChar ++ a,
                        b, ?_, ?_, hhead⟩
                      · have hres : c :: rest =
                            (c :: rest).takeWhile isNameChar ++
                              (c :: rest).dropWhile isNameChar :=
                          (List.takeWhile_append_dropWhile _ _).symm
                        conv_lhs => rw [hres, hdec]
                        simp [List.append_assoc]
                      · refine lastOk_append (fun hnil => ?_) hlast
                        rw [ha] at hnil
                        exact absurd hnil (by simp)
              · rw [if_neg hdml] at hmem
                rcases List.mem_cons.mp hmem with heq | hmem
                · exact Tok.noConfusion heq
                · obtain ⟨hv, a, b, hdec, hlast, hhead⟩ :=
                    ih _ v hrest' hmem
                  cases ha : a with
                  | nil =>
                      obtain ⟨k0, t0, hvk, hwk⟩ := dml_head_word hv
                      rw [ha, List.nil_append] at hdec
                      have : ((c :: rest).dropWhile isNameChar).head? =
                          some k0 := by
                        rw [hdec, hvk]
                        rfl
                      rw [hdropword k0 this] at hwk
                      exact absurd hwk (by simp)
                  | cons z a' =>
                      refine ⟨hv, (c :: rest).takeWhile isNameChar ++ a,
                        b, ?_, ?_, hhead⟩
                      · have hres : c :: rest =
                            (c :: rest).takeWhile isNameChar ++
                              (c :: rest).dropWhile isNameChar :=
                          (List.takeWhile_append_dropWhile _ _).symm
                        conv_lhs => rw [hres, hdec]
                        simp [List.append_assoc]
                      · refine lastOk_append (fun hnil => ?_) hlast
                        rw [ha] at hnil
                        exact absurd hnil (by simp)
            · rw [if_neg hw] at hmem
              rcases List.mem_cons.mp hmem with heq | hmem
              · exact Tok.noConfusion heq
              · obtain ⟨hv, a, b, hdec, hlast, hhead⟩ :=
                  ih rest v hlen hmem
                refine ⟨hv, c :: a, b, ?_, ?_, hhead⟩
                · rw [show (c :: a) ++ v ++ b = c :: (a ++ v ++ b) from
                    rfl, ← hdec]
                · refine lastOk_append (x := [c]) (fun _ => ?_) hlast
                  intro c' hc'
                  simp only [List.getLast?_singleton,
                    Option.some.injEq] at hc'
                  rw [← hc']
                  rw [Bool.not_eq_true] at hw
                  exact hw

/-- A whole-word occurrence built from an explicit boundary
decomposition (generalized over the scan state). -/
theorem wwFrom_intro {kw b : List Char} {k0 : Char}
    (hk0 : kw.head? = some k0)
    (hhead : ∀ c, b.head? = some c → isWordChar c = false) :
    ∀ (a : List Char) (prev : Option Char),
      (a = [] → prevOk prev = true) →
      (∀ c, a.getLast? = some c → isWordChar c = false) →
      wwFrom kw prev (a ++ kw ++ b) = true := by
  intro a
  induction a with
  | nil =>
      intro prev hprev _
      cases kw with
      | nil => exact absurd hk0 (by simp)
      | cons x kt =>
          have hpre : (x :: kt).isPrefixOf (x :: (kt ++ b)) = true := by
            rw [List.isPrefixOf_iff_prefix]
            exact List.prefix_append (x :: kt) b
          have hdrop : (x :: (kt ++ b)).drop (x :: kt).length = b :=
            List.drop_left (x :: kt) b
          have hbound : atWordStart (x :: kt) (x :: (kt ++ b)) = true := by
            simp only [atWordStart, hpre, Bool.true_and, hdrop]
            cases b with
            | nil => rfl
            | cons c bt => simp [hhead c rfl]
          show wwFrom (x :: kt) prev (x :: (kt ++ b)) = true
          simp only [wwFrom]
          rw [hprev rfl, hbound, Bool.and_true, Bool.true_or]
  | cons y a' iha =>
      intro prev hprev hlast
      have hright : wwFrom kw (some y) (a' ++ kw ++ b) = true := by
        apply iha
        · intro ha'
          subst ha'
          simp only [prevOk]
          rw [hlast y (by rfl)]
          rfl
        · intro c hc
          apply hlast
          cases a' with
          | nil => exact absurd hc (by simp)
          | cons z t => rw [List.getLast?_cons_cons]; exact hc
      show wwFrom kw prev (y :: (a' ++ kw ++ b)) = true
      simp only [wwFrom]
      rw [hright, Bool.or_true]

/-- A whole-word occurrence from a boundary decomposition. -/
theorem containsWholeWord_intro {kw a b : List Char} {k0 : Char}
    (hk0 : kw.head? = some k0)
    (hlast : ∀ c, a.getLast? = some c → isWordChar c = false)
    (hhead : ∀ c, b.head? = some c → isWordChar c = false) :
    containsWholeWord kw (a ++ kw ++ b) = true := by
  unfold containsWholeWord
  rw [List.append_assoc]
  have := wwFrom_intro hk0 hhead a none (fun _ => rfl) hlast
  rw [List.append_assoc] at this
  exact this

/-- Top-level grouping preserves the statement text. -/
theorem groupTop_val (fuel : Nat) : ∀ ts : List Tok,
    toksVal (groupTop fuel ts) = toksVal ts := by
  induction fuel with
  | zero => intro ts; rfl
  | succ fuel ih =>
      intro ts
      simp only [groupTop]
      cases hp2 : (groupF (fuel + 1) ts).2 with
      | nil =>
          have h := groupF_val (fuel + 1) ts
          rw [hp2] at h
          simpa [toksVal] using h
      | cons t rest =>
          have h := groupF_val (fuel + 1) ts
          rw [hp2] at h
          rw [toksVal_append]
          simp only [toksVal, ih]
          rw [← h]
          simp [toksVal, List.append_assoc]

end Sqlparse

namespace SQLSecurityValidator

open Sqlparse

/-- The nested-DML scan distributes over append. -/
theorem hasNested_append (a b : List Tok) :
    _has_nested_dml (a ++ b) =
      (_has_nested_dml a || _has_nested_dml b) := by
  induction a with
  | nil => simp [_has_nested_dml]
  | cons t ts ih =>
      simp only [List.cons_append, _has_nested_dml, List.append_eq, ih,
        Bool.or_assoc]

/-- The nested-DML scan of a list is the disjunction over its tokens. -/
theorem hasNested_eq_false (ts : List Tok) :
    _has_nested_dml ts = false ↔
      ∀ t ∈ ts, _has_nested_dml_tok t = false := by
  induction ts with
  | nil => simp [_has_nested_dml]
  | cons t ts ih =>
      simp [_has_nested_dml, Bool.or_eq_false_iff, ih]

/-- Grouping a stream of harmless tokens yields a harmless tree (both
components). -/
theorem groupF_no_bad (fuel : Nat) : ∀ ts : List Tok,
    (∀ t ∈ ts, _has_nested_dml_tok t = false) →
    _has_nested_dml (groupF fuel ts).1 = false ∧
    (∀ t ∈ (groupF fuel ts).2, _has_nested_dml_tok t = false) := by
  induction fuel with
  | zero =>
      intro ts h
      exact ⟨(hasNested_eq_false ts).mpr h, by simp [groupF]⟩
  | succ fuel ih =>
      intro ts h
      cases ts with
      | nil => exact ⟨rfl, by simp [groupF]⟩
      | cons t rest =>
          rw [List.forall_mem_cons] at h
          simp only [groupF]
          by_cases hcl : isPunctOf ')' t = true
          · rw [if_pos hcl]
            exact ⟨rfl, List.forall_mem_cons.mpr h⟩
          · rw [if_neg hcl]
            by_cases hop : isPunctOf '(' t = true
            · rw [if_pos hop]
              obtain ⟨ih1, ih2⟩ := ih rest h.2
              cases hp2 : (groupF fuel rest).2 with
              | nil =>
                  refine ⟨?_, by simp⟩
                  simp only [_has_nested_dml, _has_nested_dml_tok,
                    Bool.or_eq_false_iff]
                  exact ⟨⟨h.1, ih1⟩, trivial⟩
              | cons t2 rest2 =>
                  rw [hp2, List.forall_mem_cons] at ih2
                  obtain ⟨ihq1, ihq2⟩ := ih rest2 ih2.2
                  refine ⟨?_, ihq2⟩
                  simp only [_has_nested_dml, _has_nested_dml_tok,
                    hasNested_append, Bool.or_eq_false_iff]
                  refine ⟨⟨h.1, ih1, ?_⟩, ihq1⟩
                  simp [_has_nested_dml, ih2.1]
            · rw [if_neg hop]
              obtain ⟨ih1, ih2⟩ := ih rest h.2
              refine ⟨?_, ih2⟩
              simp only [_has_nested_dml, Bool.or_eq_false_iff]
              exact ⟨h.1, ih1⟩

/-- Grouping a stream of harmless tokens yields a harmless statement. -/
theorem groupTop_no_bad (fuel : Nat) : ∀ ts : List Tok,
    (∀ t ∈ ts, _has_nested_dml_tok t = false) →
    _has_nested_dml (groupTop fuel ts) = false := by
  induction fuel with
  | zero => intro ts h; exact (hasNested_eq_false ts).mpr h
  | succ fuel ih =>
      intro ts h
      simp only [groupTop]
      obtain ⟨h1, h2⟩ := groupF_no_bad (fuel + 1) ts h
      cases hp2 : (groupF (fuel + 1) ts).2 with
      | nil => exact h1
      | cons t rest =>
          rw [hp2, List.forall_mem_cons] at h2
          rw [hasNested_append, Bool.or_eq_false_iff]
          refine ⟨h1, ?_⟩
          simp only [_has_nested_dml, Bool.or_eq_false_iff]
          exact ⟨h2.1, ih rest h2.2⟩

/-- Under the keyword blocklist precondition, the token stream carries no
non-SELECT DML token. -/
theorem tokenize_no_bad (q : List Char)
    (hkw : ∀ kw ∈ DANGEROUS_KEYWORDS, containsWholeWord kw q = false) :
    ∀ t ∈ tokenize q, _has_nested_dml_tok t = false := by
  intro t ht
  cases t with
  | group g => exact absurd ht (tokenizeF_no_group _ _ g)
  | word v => rfl
  | strLit v => rfl
  | punct v => rfl
  | dml v =>
      simp only [_has_nested_dml_tok, Bool.not_eq_false',
        decide_eq_true_eq]
      by_contra hne
      obtain ⟨hv, a, b, hdec, hlast, hhead⟩ :=
        tokenizeF_dml q.length q v (Nat.le_refl _) ht
      obtain ⟨k0, t0, hvk, hwk⟩ := dml_head_word hv
      have hocc := @containsWholeWord_intro v a b k0
        (by rw [hvk]; rfl) hlast hhead
      rw [← hdec, hkw v (dml_nonselect_dangerous hv hne)] at hocc
      exact absurd hocc (by simp)

/-- The first parsed statement is the grouping of the first split
statement of the token stream. -/
theorem parse_first_stmt {q : List Char} {st : List Tok}
    {rest : List (List Tok)} (hparse : parse q = st :: rest) :
    ∃ ts₁ r, splitStatements (tokenize q) = ts₁ :: r ∧
      st = groupTop (ts₁.length + 1) ts₁ := by
  unfold parse at hparse
  cases hsp : splitStatements (tokenize q) with
  | nil => rw [hsp] at hparse; exact absurd hparse (by simp)
  | cons ts₁ r =>
      rw [hsp] at hparse
      simp only [List.map_cons, List.cons.injEq] at hparse
      exact ⟨ts₁, r, rfl, hparse.1.symm⟩

/-- Under the keyword blocklist precondition, the first parsed statement
has no nested DML token. -/
theorem parse_first_no_nested (q : List Char) (st : List Tok)
    (rest : List (List Tok)) (hparse : parse q = st :: rest)
    (hkw : ∀ kw ∈ DANGEROUS_KEYWORDS, containsWholeWord kw q = false) :
    _has_nested_dml st = false := by
  obtain ⟨ts₁, r, hsp, hst⟩ := parse_first_stmt hparse
  rw [hst]
  apply groupTop_no_bad
  intro t ht
  exact tokenize_no_bad q hkw t
    (mem_of_mem_splitStatements
      (by rw [hsp]; exact List.mem_cons_self _ _) ht)

/-- The first parsed statement's text has no more semicolons than the
whole query. -/
theorem parse_first_semis (q : List Char) (st : List Tok)
    (rest : List (List Tok)) (hparse : parse q = st :: rest) :
    countChar ';' (toksVal st) ≤ countChar ';' q := by
  obtain ⟨ts₁, r, hsp, hst⟩ := parse_first_stmt hparse
  rw [hst, groupTop_val]
  have hfl := splitStatements_flatten (tokenize q)
  rw [hsp] at hfl
  simp only [List.flatten_cons] at hfl
  have hq : toksVal ts₁ ++ toksVal r.flatten = q := by
    rw [← toksVal_append, hfl, tokenize_val]
  rw [← hq]
  unfold countChar
  rw [List.countP_append]
  omega

end SQLSecurityValidator

/-- Claim C5: the claim fails on the code.  A syntactically valid
single SELECT statement free of blocklisted keywords, functions and
patterns — but with two semicolons inside string literals — is
REJECTED, because `_has_multiple_statements` counts every semicolon
character of the statement text, including those inside string
literals, contradicting its own comment.  The conjuncts record that the
input really is in the claim's hypothesis class (no gate fires, it
parses as exactly one statement, and that statement is a SELECT) and
that the verdict is nevertheless a rejection. -/
theorem single_select_literal_semis_rejected :
    (∀ kw ∈ SQLSecurityValidator.DANGEROUS_KEYWORDS,
      containsWholeWord kw
        (pyUpper (pyStrip
          "SELECT 'A;B' FROM T WHERE C = 'D;E'".toList)) = false) ∧
    SQLSecurityValidator.findDangerousFunction
      (pyUpper (pyStrip
        "SELECT 'A;B' FROM T WHERE C = 'D;E'".toList)) = none ∧
    SQLSecurityValidator.findInjectionPattern
      (pyUpper (pyStrip
        "SELECT 'A;B' FROM T WHERE C = 'D;E'".toList)) = none ∧
    (Sqlparse.parse (pyUpper (pyStrip
        "SELECT 'A;B' FROM T WHERE C = 'D;E'".toList))).length = 1 ∧
    SQLSecurityValidator.firstStmtIsSelect
      (pyUpper (pyStrip
        "SELECT 'A;B' FROM T WHERE C = 'D;E'".toList)) = true ∧
    SQLSecurityValidator.validate_sql
        "SELECT 'A;B' FROM T WHERE C = 'D;E'".toList =
      ⟨false, "Query structure validation failed".toList⟩ := by
  refine ⟨by decide, by rfl, by rfl, by rfl, by rfl, by rfl⟩

/-- Claim C7 (amended): `load_schema_from_yaml` does not fail closed —
a document without a `tables` key loads as an empty schema, non-list
columns abort the transformation to an empty schema, and a column
missing `name` is silently kept under an empty name — while the
separate `validate_schema_file` does report the first structural
defect by message. -/
theorem schema_validation_spec (m : List (List Char × Yaml))
    (h : SchemaManager.ymem m "tables".toList = false) :
    SchemaManager.load_schema_transform (.map m) = [] ∧
    SchemaManager.validate_schema_data (.map m) =
      (false, "Schema file must contain 'tables' key".toList) ∧
    SchemaManager.load_schema_transform docNonListCols = [] ∧
    SchemaManager.validate_schema_data docNonListCols =
      (false, "Columns for table 'T' must be a list".toList) ∧
    SchemaManager.load_schema_transform docMissingColName =
      [(.str "T".toList,
        [⟨.str [], .str "varchar(255)".toList, .bool true, .str [],
          .str "x".toList⟩])] ∧
    SchemaManager.validate_schema_data docMissingColName =
      (false, "Column 0 in table 'T' missing 'name' field".toList) := by
  unfold SchemaManager.ymem at h
  refine ⟨?_, ?_, by rfl, by rfl, by rfl, by rfl⟩
  · unfold SchemaManager.load_schema_transform
    cases hy : SchemaManager.yget m "tables".toList with
    | some v => rw [hy] at h; exact absurd h (by simp)
    | none =>
        have hy' : SchemaManager.yget m
            ['t', 'a', 'b', 'l', 'e', 's'] = none := hy
        simp [hy']
  · unfold SchemaManager.validate_schema_data
    cases hy : SchemaManager.yget m "tables".toList with
    | some v => rw [hy] at h; exact absurd h (by simp)
    | none =>
        have hy' : SchemaManager.yget m
            ['t', 'a', 'b', 'l', 'e', 's'] = none := hy
        simp [hy']

/-- Witness for the amended C7 at the empty document `{}`. -/
theorem schema_validation_spec_witness :
    SchemaManager.load_schema_transform (.map []) = [] ∧
    SchemaManager.validate_schema_data (.map []) =
      (false, "Schema file must contain 'tables' key".toList) :=
  ⟨(schema_validation_spec [] (by decide)).1,
   (schema_validation_spec [] (by decide)).2.1⟩

end N8AI
